import Mathlib

/-!
Verification of the `orelang-but-rust` repository (a small tower-lsp language
server with a chumsky lexer).

The development shallowly embeds the two source files:

* `src/parser.rs` — the chumsky 0.9 lexer and the `parse` entry point.
  The combinator pipeline
  `token.map_with_span(..).padded().repeated()` is specialized here into a
  first-order scanner: at each step, skip `char::is_whitespace` padding, then
  try the alternatives `lparen / rparen / comment / number / ident` in source
  order with first-match-wins and full backtracking inside a failed
  alternative (chumsky `or` semantics).  Facts about the chumsky library that
  this embedding relies on, each taken from chumsky 0.9 itself:
  - the `Stream` built by `From<&str>` hands the parser the CHARACTER sequence
    of the source and spans count in character indices, not byte offsets
    (explicitly documented on chumsky's `impl From<&str> for Stream`);
  - `take_until(p)` consumes input up to AND INCLUDING the input consumed by
    the terminating pattern `p`;
  - `text::newline()` accepts CRLF as well as any single character of
    LF, VT, FF, CR, NEL (U+0085), LS (U+2028), PS (U+2029);
  - `text::int(10)` is a nonzero digit followed by digits, or the single
    digit `0`; `text::digits(10)` is one or more decimal digits;
  - `text::ident()` is `[a-zA-Z_][a-zA-Z0-9_]*` (ASCII only);
  - `repeated()` matches zero or more occurrences and never fails: it stops
    before the first position where its inner parser fails;
  - a chumsky parser accepts a PREFIX of the input unless `end()` is added
    (`end()`'s documentation: it is used to force a parser to consume all of
    the input), and `parse_recovery` on a parser with no `recover_with`
    strategy and no `validate` returns the successful output together with an
    empty error list.  `lexer()` in this repository installs no recovery
    strategy (unlike the tower-lsp-boilerplate it is derived from), so
    `lexer().parse_recovery(src)` is `(Some(tokens of the longest lexable
    prefix), vec![])` for every input.

* `src/main.rs` — the `Backend` state (the four mutex-guarded fields, with the
  sequential semantics the mutexes enforce), `compile`, `did_close` and
  `semantic_tokens_full`.  Ropey's `Rope` is embedded as the character list of
  the document with byte positions recomputed through each character's UTF-8
  size; with ropey's default `unicode_lines` feature the line-break characters
  are LF, VT, FF, CR, NEL, LS, PS with CRLF counting as a single break, and
  `byte_to_char` / `byte_to_line` on a byte in the middle of a multi-byte
  character answer for the character containing that byte.  The `try_` variants
  fail exactly when the byte (resp. line) index exceeds the total length.
  `u32` protocol fields are embedded as `Nat` (the `try_into().unwrap()` calls
  cannot overflow for documents below 4 GiB, and nothing here depends on
  wrap-around).
-/

namespace Orelang

/-! ## Character classes (Rust `char` methods used by the lexer) -/

/-- Rust `char::is_whitespace`: the Unicode `White_Space` property. -/
def isWsChar (c : Char) : Bool :=
  let n := c.toNat
  n == 0x9 || n == 0xA || n == 0xB || n == 0xC || n == 0xD || n == 0x20 ||
  n == 0x85 || n == 0xA0 || n == 0x1680 ||
  (decide (0x2000 ≤ n) && decide (n ≤ 0x200A)) ||
  n == 0x2028 || n == 0x2029 || n == 0x202F || n == 0x205F || n == 0x3000

/-- Rust `char::is_digit(10)`: an ASCII decimal digit. -/
def isDigitChar (c : Char) : Bool :=
  decide (0x30 ≤ c.toNat) && decide (c.toNat ≤ 0x39)

/-- Rust `char::is_ascii_alphabetic`. -/
def isAsciiAlphaChar (c : Char) : Bool :=
  (decide (0x41 ≤ c.toNat) && decide (c.toNat ≤ 0x5A)) ||
  (decide (0x61 ≤ c.toNat) && decide (c.toNat ≤ 0x7A))

/-- Lead character accepted by chumsky `text::ident()`: ASCII letter or `_`. -/
def isIdentStartChar (c : Char) : Bool :=
  isAsciiAlphaChar c || c.toNat == 0x5F

/-- Continuation character of `text::ident()`: ASCII alphanumeric or `_`. -/
def isIdentContChar (c : Char) : Bool :=
  isAsciiAlphaChar c || isDigitChar c || c.toNat == 0x5F

/-- The characters of `one_of("+-*[slash]=")` in the `ident` rule. -/
def isOpChar (c : Char) : Bool :=
  let n := c.toNat
  n == 0x2B || n == 0x2D || n == 0x2A || n == 0x2F || n == 0x3D

/-- Characters that can begin a `text::newline()` match: LF, VT, FF, CR,
NEL, LS, PS. -/
def isNlChar (c : Char) : Bool :=
  let n := c.toNat
  n == 0xA || n == 0xB || n == 0xC || n == 0xD ||
  n == 0x85 || n == 0x2028 || n == 0x2029

/-- Length of the longest prefix whose characters all satisfy `p`
(the consumption of chumsky `filter(p).repeated()`). -/
def countWhile (p : Char → Bool) : List Char → Nat
  | [] => 0
  | c :: rest => if p c then countWhile p rest + 1 else 0

/-! ## The lexer of `src/parser.rs` -/

/-- `Token` from `src/parser.rs`. -/
inductive Token where
  | LParen
  | RParen
  | Comment
  | Number (s : String)
  | Ident (s : String)
deriving DecidableEq, Repr

/-- `Span = std::ops::Range<usize>` from `src/parser.rs`: the half-open
range `[start, stop)`.  (`stop` stands for the Rust field `end`, which is a
reserved word in Lean.)  Following chumsky's `From<&str>` stream, the units
are character indices into the source. -/
structure Span where
  start : Nat
  stop : Nat
deriving DecidableEq, Repr

/-- `Range::len()`. -/
def Span.len (s : Span) : Nat := s.stop - s.start

/-- Characters consumed by a `text::newline()` match starting at a character
`c` (already known to satisfy `isNlChar`) followed by `rest`: CRLF consumes
two characters, every other break consumes one. -/
def nlLenAt (c : Char) (rest : List Char) : Nat :=
  if c = '\r' then
    match rest with
    | d :: _ => if d = '\n' then 2 else 1
    | [] => 1
  else 1

/-- Consumption of `take_until(text::newline().or(end()))`: characters up to
and including the next line terminator, or the whole list when none occurs
(`end()` matches at end of input).  This is the body of the `comment` rule
after its `;`. -/
def takeUntilNL : List Char → Nat
  | [] => 0
  | c :: rest => if isNlChar c then nlLenAt c rest else 1 + takeUntilNL rest

/-- Consumption of the `comment` rule,
`just(";").then(take_until(newline.or(end()))).padded()`: leading whitespace
padding, the `;`, the body up to and including the terminator, and trailing
whitespace padding.  `none` when the first non-whitespace character is not
`;`. -/
def commentLen (cs : List Char) : Option Nat :=
  let a := countWhile isWsChar cs
  match cs.drop a with
  | c :: afterSemi =>
    if c = ';' then
      let body := takeUntilNL afterSemi
      some (a + 1 + body + countWhile isWsChar (afterSemi.drop body))
    else none
  | [] => none

/-- Consumption of `text::int(10)`: a nonzero digit followed by digits, or
the single digit `0`. -/
def intLen : List Char → Option Nat
  | [] => none
  | c :: rest =>
    if isDigitChar c ∧ c ≠ '0' then some (1 + countWhile isDigitChar rest)
    else if c = '0' then some 1
    else none

/-- Consumption of `just('.').chain(text::digits(10)).or_not()`: a dot
followed by at least one digit, or nothing (the failed option backtracks). -/
def fracLen : List Char → Nat
  | [] => 0
  | c :: rest =>
    if c = '.' ∧ countWhile isDigitChar rest ≠ 0 then 1 + countWhile isDigitChar rest
    else 0

/-- One attempt of the `token` alternative
`lparen.or(rparen).or(comment).or(number).or(ident)` at the current position:
the rules are tried in source order, first match wins, and a failed rule
backtracks completely.  Returns the token and the number of characters
consumed. -/
def matchToken (cs : List Char) : Option (Token × Nat) :=
  match cs with
  | [] => none
  | c :: rest =>
    if c = '(' then some (Token.LParen, 1)
    else if c = ')' then some (Token.RParen, 1)
    else
      match commentLen (c :: rest) with
      | some n => some (Token.Comment, n)
      | none =>
        match intLen (c :: rest) with
        | some n =>
          let m := n + fracLen ((c :: rest).drop n)
          some (Token.Number (String.mk ((c :: rest).take m)), m)
        | none =>
          if isIdentStartChar c then
            let m := 1 + countWhile isIdentContChar rest
            some (Token.Ident (String.mk ((c :: rest).take m)), m)
          else if isOpChar c then some (Token.Ident (String.mk [c]), 1)
          else none

/-- The loop of `token.map_with_span(..).padded().repeated()`: each round
skips whitespace padding, matches one token (recording its span over exactly
the characters the `token` parser consumed), and continues after it;
`repeated()` stops successfully at the first position where no rule matches.
The trailing half of each round's `padded()` is merged into the next round's
leading skip (the consumed whitespace is identical and spans are unaffected).
The fuel argument only forces structural termination; every match consumes at
least one character, so `length + 1` fuel (as used by `lexer`) never runs
out. -/
def lexLoop : Nat → List Char → Nat → List (Token × Span)
  | 0, _, _ => []
  | fuel + 1, cs, pos =>
    let w := countWhile isWsChar cs
    let r := cs.drop w
    match matchToken r with
    | none => []
    | some (t, n) => (t, ⟨pos + w, pos + w + n⟩) :: lexLoop fuel (r.drop n) (pos + w + n)

/-- `lexer()` applied to a source string: the token/span list produced by one
lex pass over `s`. -/
def lexer (s : String) : List (Token × Span) :=
  lexLoop (s.data.length + 1) s.data 0

/-! ## `parse` of `src/parser.rs` -/

/-- `tower_lsp::lsp_types::SemanticTokenType`: a newtype over the LSP
token-type string. -/
structure SemanticTokenType where
  name : String
deriving DecidableEq, Repr

/-- `SemanticTokenType::COMMENT`. -/
def SemanticTokenType.COMMENT : SemanticTokenType := ⟨"comment"⟩

/-- `SemanticTokenType::NUMBER`. -/
def SemanticTokenType.NUMBER : SemanticTokenType := ⟨"number"⟩

/-- `SemanticTokenType::VARIABLE`. -/
def SemanticTokenType.VARIABLE : SemanticTokenType := ⟨"variable"⟩

/-- `ImCompleteSemanticToken` from `src/parser.rs`. -/
structure ImCompleteSemanticToken where
  start : Nat
  length : Nat
  token_type : SemanticTokenType
deriving DecidableEq, Repr

/-- A recoverable lex error (`chumsky::error::Simple` mapped to `String` by
`parse`).  Only its presence or absence matters to the claims. -/
structure LexError where
  pos : Nat
  msg : String
deriving DecidableEq, Repr

/-- `ParseResult` from `src/parser.rs`. -/
structure ParseResult where
  semantic_tokens : List ImCompleteSemanticToken
  parse_errors : List LexError
deriving DecidableEq, Repr

/-- `lexer().parse_recovery(source)`.  The top-level parser is `repeated()`,
which cannot fail, and no `recover_with` strategy or `validate` is installed
anywhere in `lexer()`, so the output is always `Some` of the longest lexable
prefix's tokens and the error list is always empty (see the header comment
for the chumsky facts this rests on). -/
def parse_recovery (source : String) : Option (List (Token × Span)) × List LexError :=
  (some (lexer source), [])

/-- The `filter_map` body inside `parse`: parentheses yield no semantic
token; comments, numbers and identifiers become semantic tokens with the
span's start and length and the categories COMMENT / NUMBER / VARIABLE. -/
def semanticTokenOf : Token × Span → Option ImCompleteSemanticToken
  | (Token.LParen, _) => none
  | (Token.RParen, _) => none
  | (Token.Comment, span) => some ⟨span.start, span.len, SemanticTokenType.COMMENT⟩
  | (Token.Number _, span) => some ⟨span.start, span.len, SemanticTokenType.NUMBER⟩
  | (Token.Ident _, span) => some ⟨span.start, span.len, SemanticTokenType.VARIABLE⟩

/-- `parse` from `src/parser.rs`. -/
def parse (source : String) : ParseResult :=
  let (tokens, errs) := parse_recovery source
  { semantic_tokens :=
      match tokens with
      | some toks => toks.filterMap semanticTokenOf
      | none => []
    parse_errors := errs }

/-! ## Ropey's `Rope`, as used by `src/main.rs`

Only the queries `main.rs` performs are embedded: `try_byte_to_line`,
`try_line_to_char` and `try_byte_to_char`, over a rope built by
`Rope::from_str`. -/

/-- The UTF-8 byte width of a character (`char::len_utf8`). -/
def utf8Len (c : Char) : Nat :=
  if c.toNat < 0x80 then 1
  else if c.toNat < 0x800 then 2
  else if c.toNat < 0x10000 then 3
  else 4

/-- A line-break character for ropey with its default `unicode_lines`
feature: LF, VT, FF, CR, NEL, LS, PS (CRLF is handled where lists are
walked).  This is the same character set as `isNlChar`. -/
def isBreakChar (c : Char) : Bool := isNlChar c

/-- `ropey::Rope`, embedded as the character sequence of the document. -/
structure Rope where
  text : List Char
deriving DecidableEq, Repr

/-- `Rope::from_str`. -/
def Rope.from_str (s : String) : Rope := ⟨s.data⟩

/-- `Rope::len_bytes`. -/
def Rope.len_bytes (r : Rope) : Nat := (r.text.map utf8Len).sum

/-- `Rope::len_chars`. -/
def Rope.len_chars (r : Rope) : Nat := r.text.length

/-- Number of line breaks in a character list (CRLF counts once). -/
def countLineBreaks : List Char → Nat
  | [] => 0
  | '\r' :: '\n' :: rest => 1 + countLineBreaks rest
  | c :: rest => (if isBreakChar c then 1 else 0) + countLineBreaks rest

/-- `Rope::len_lines`: one more than the number of line breaks. -/
def Rope.len_lines (r : Rope) : Nat := countLineBreaks r.text + 1

/-- Zero-based line index of the character containing byte `b` (the break
characters belong to the line they terminate); for `b` at or past the end,
the last line.  Walks the text subtracting byte widths. -/
def byteToLineAux : List Char → Nat → Nat
  | [], _ => 0
  | '\r' :: '\n' :: rest, b => if b < 2 then 0 else 1 + byteToLineAux rest (b - 2)
  | c :: rest, b =>
    if b < utf8Len c then 0
    else (if isBreakChar c then 1 else 0) + byteToLineAux rest (b - utf8Len c)

/-- Char index of the character containing byte `b`; for `b` at the end, the
total character count (ropey: a byte in the middle of a multi-byte character
answers for the character containing it). -/
def byteToCharAux : List Char → Nat → Nat
  | [], _ => 0
  | c :: rest, b => if b < utf8Len c then 0 else 1 + byteToCharAux rest (b - utf8Len c)

/-- Char index of the start of line `l` (one past the `l`-th break); for `l`
past the last line, the total character count. -/
def lineToCharAux : List Char → Nat → Nat
  | _, 0 => 0
  | [], _ + 1 => 0
  | '\r' :: '\n' :: rest, l + 1 => 2 + lineToCharAux rest l
  | c :: rest, l + 1 =>
    if isBreakChar c then 1 + lineToCharAux rest l else 1 + lineToCharAux rest (l + 1)

/-- `Rope::try_byte_to_line`: errors exactly when `b` exceeds `len_bytes`. -/
def Rope.try_byte_to_line (r : Rope) (b : Nat) : Option Nat :=
  if b ≤ r.len_bytes then some (byteToLineAux r.text b) else none

/-- `Rope::try_byte_to_char`: errors exactly when `b` exceeds `len_bytes`. -/
def Rope.try_byte_to_char (r : Rope) (b : Nat) : Option Nat :=
  if b ≤ r.len_bytes then some (byteToCharAux r.text b) else none

/-- `Rope::try_line_to_char`: errors exactly when `l` exceeds `len_lines`. -/
def Rope.try_line_to_char (r : Rope) (l : Nat) : Option Nat :=
  if l ≤ r.len_lines then some (lineToCharAux r.text l) else none

/-! ## The `Backend` of `src/main.rs` -/

/-- An LSP `SemanticToken` as emitted by `semantic_tokens_full` (`u32` fields
embedded as `Nat`). -/
structure SemanticToken where
  delta_line : Nat
  delta_start : Nat
  length : Nat
  token_type : Nat
  token_modifiers_bitset : Nat
deriving DecidableEq, Repr

/-- `lsp_types::Diagnostic`, restricted to what `create_simple_diagnostics`
fills in: a range of zero-based line/character positions and a message. -/
structure Diagnostic where
  start_line : Nat
  start_character : Nat
  end_line : Nat
  end_character : Nat
  message : String
deriving DecidableEq, Repr

/-- `create_simple_diagnostics` from `src/main.rs`. -/
def create_simple_diagnostics (message : String) (start_line start_column end_line end_column : Nat) : Diagnostic :=
  ⟨start_line, start_column, end_line, end_column, message⟩

/-- `HashMap::insert`: replace the binding of the key, or append a new
binding.  (The association-list order stands in for the hash map; only
lookups are observable.) -/
def insertAssoc {α β : Type} [DecidableEq α] : List (α × β) → α → β → List (α × β)
  | [], k, v => [(k, v)]
  | (k0, v0) :: rest, k, v =>
    if k0 = k then (k, v) :: rest else (k0, v0) :: insertAssoc rest k v

/-- `HashMap::get`. -/
def lookupAssoc {α β : Type} [DecidableEq α] : List (α × β) → α → Option β
  | [], _ => none
  | (k0, v0) :: rest, k => if k0 = k then some v0 else lookupAssoc rest k

/-- The `Backend` struct of `src/main.rs`.  Each field is the content of the
corresponding mutex-guarded map; the mutexes serialize the handlers, so the
handlers below are plain state transformers. -/
structure Backend where
  publish_diagnostics_capable : Bool
  rope_map : List (String × Rope)
  token_types_map : List (SemanticTokenType × Nat)
  semantic_token_map : List (String × List ImCompleteSemanticToken)
deriving DecidableEq, Repr

/-- The `initialize` handler's negotiation loop: each client-advertised token
type is inserted into `token_types_map` with its index in the advertised
list. -/
def buildTokenTypesMap (token_types : List SemanticTokenType) : List (SemanticTokenType × Nat) :=
  token_types.enum.foldl (fun m iv => insertAssoc m iv.2 iv.1) []

/-- The two hardcoded placeholder diagnostics `compile` publishes. -/
def dummyDiagnostics : List Diagnostic :=
  [create_simple_diagnostics "diagnostic message 1" 0 0 0 5,
   create_simple_diagnostics "diagnostic message 2" 1 0 1 5]

/-- `Backend::compile`: store the rope and the freshly parsed semantic
tokens under the uri, then publish the placeholder diagnostics (only when
the client advertised publish-diagnostics capability).  The second component
is the published diagnostics list, `none` when nothing is sent. -/
def compile (b : Backend) (uri : String) (src : String) : Backend × Option (List Diagnostic) :=
  ({ b with
      rope_map := insertAssoc b.rope_map uri (Rope.from_str src)
      semantic_token_map := insertAssoc b.semantic_token_map uri (parse src).semantic_tokens },
   if b.publish_diagnostics_capable then some dummyDiagnostics else none)

/-- `did_close`: publishes an empty diagnostics list for the uri (when the
client is capable) and touches no state. -/
def did_close (b : Backend) (_uri : String) : Backend × Option (List Diagnostic) :=
  (b, if b.publish_diagnostics_capable then some ([] : List Diagnostic) else none)

/-- The per-token body of `semantic_tokens_full`'s `filter_map`: resolve the
token's recorded start (a chumsky char index, read by the code as a byte
offset) to an absolute line and column and its category to the negotiated
legend index.  `none` (the `?` early returns) exactly when one of the rope
queries or the legend lookup fails. -/
def resolveToken (rope : Rope) (token_types_map : List (SemanticTokenType × Nat))
    (token : ImCompleteSemanticToken) : Option (Nat × Nat × Nat × Nat) :=
  match rope.try_byte_to_line token.start with
  | none => none
  | some line =>
    match rope.try_line_to_char line with
    | none => none
    | some line_first =>
      match rope.try_byte_to_char token.start with
      | none => none
      | some char_idx =>
        match lookupAssoc token_types_map token.token_type with
        | none => none
        | some idx => some (line, char_idx - line_first, idx, token.length)

/-- The `filter_map` fold of `semantic_tokens_full`: emit a delta-encoded
`SemanticToken` for every token that resolves, updating `pre_line` and
`pre_column` only on emission (a skipped token leaves them untouched, as the
`?` returns fire before the updates). -/
def mapSemTokens (rope : Rope) (token_types_map : List (SemanticTokenType × Nat)) :
    Nat → Nat → List ImCompleteSemanticToken → List SemanticToken
  | _, _, [] => []
  | pre_line, pre_column, token :: rest =>
    match resolveToken rope token_types_map token with
    | none => mapSemTokens rope token_types_map pre_line pre_column rest
    | some (line, column, idx, len) =>
      { delta_line := line - pre_line
        delta_start := if line - pre_line = 0 then column - pre_column else column
        length := len
        token_type := idx
        token_modifiers_bitset := 0 } :: mapSemTokens rope token_types_map line column rest

/-- The delta encoder on already-resolved absolute `(line, column, legend
index, length)` records, for comparison with `mapSemTokens`. -/
def deltaEncode : Nat → Nat → List (Nat × Nat × Nat × Nat) → List SemanticToken
  | _, _, [] => []
  | pre_line, pre_column, (line, column, idx, len) :: rest =>
    { delta_line := line - pre_line
      delta_start := if line - pre_line = 0 then column - pre_column else column
      length := len
      token_type := idx
      token_modifiers_bitset := 0 } :: deltaEncode line column rest

/-- `semantic_tokens_full`: look up the uri's rope and cached semantic
tokens (either miss makes the whole closure answer `None`), delta-encode the
resolvable tokens from `pre_line = pre_column = 0`, and answer `Ok` in every
case (the handler has no error path). -/
def semantic_tokens_full (b : Backend) (uri : String) : Except String (Option (List SemanticToken)) :=
  Except.ok
    (match lookupAssoc b.rope_map uri with
     | none => none
     | some rope =>
       match lookupAssoc b.semantic_token_map uri with
       | none => none
       | some v => some (mapSemTokens rope b.token_types_map 0 0 v))


/-! ## Consumption bounds for the lexer rules -/

theorem countWhile_le (p : Char → Bool) : ∀ cs : List Char, countWhile p cs ≤ cs.length := by
  intro cs
  induction cs with
  | nil => simp [countWhile]
  | cons c rest ih =>
    simp only [countWhile, List.length_cons]
    split
    · omega
    · omega

theorem nlLenAt_le (c : Char) (rest : List Char) : nlLenAt c rest ≤ 1 + rest.length := by
  unfold nlLenAt
  split
  · cases rest with
    | nil => simp
    | cons d tl => simp only [List.length_cons]; split <;> omega
  · omega

theorem takeUntilNL_le : ∀ cs : List Char, takeUntilNL cs ≤ cs.length := by
  intro cs
  induction cs with
  | nil => simp [takeUntilNL]
  | cons c rest ih =>
    simp only [takeUntilNL, List.length_cons]
    split
    · have := nlLenAt_le c rest
      omega
    · omega

theorem commentLen_bounds {cs : List Char} {n : Nat} (h : commentLen cs = some n) :
    1 ≤ n ∧ n ≤ cs.length := by
  have hale : countWhile isWsChar cs ≤ cs.length := countWhile_le _ _
  simp only [commentLen] at h
  split at h
  next c afterSemi heq =>
    split at h
    next =>
      have hn := Option.some.inj h
      have hlen : (cs.drop (countWhile isWsChar cs)).length =
          cs.length - countWhile isWsChar cs := List.length_drop _ _
      rw [heq] at hlen
      simp only [List.length_cons] at hlen
      have hbody : takeUntilNL afterSemi ≤ afterSemi.length := takeUntilNL_le _
      have htrail : countWhile isWsChar (afterSemi.drop (takeUntilNL afterSemi)) ≤
          (afterSemi.drop (takeUntilNL afterSemi)).length := countWhile_le _ _
      have hdroplen : (afterSemi.drop (takeUntilNL afterSemi)).length =
          afterSemi.length - takeUntilNL afterSemi := List.length_drop _ _
      omega
    next => exact absurd h (by simp)
  next => exact absurd h (by simp)

theorem intLen_bounds {cs : List Char} {n : Nat} (h : intLen cs = some n) :
    1 ≤ n ∧ n ≤ cs.length := by
  cases cs with
  | nil => exact absurd h (by simp [intLen])
  | cons c rest =>
    simp only [intLen] at h
    split at h
    next =>
      have hn := Option.some.inj h
      have := countWhile_le isDigitChar rest
      simp only [List.length_cons]
      omega
    next =>
      split at h
      next =>
        have hn := Option.some.inj h
        simp only [List.length_cons]
        omega
      next => exact absurd h (by simp)

theorem fracLen_le : ∀ cs : List Char, fracLen cs ≤ cs.length := by
  intro cs
  cases cs with
  | nil => simp [fracLen]
  | cons c rest =>
    have := countWhile_le isDigitChar rest
    simp only [fracLen, List.length_cons]
    split
    next => omega
    next => omega

theorem matchToken_bounds {cs : List Char} {t : Token} {n : Nat}
    (h : matchToken cs = some (t, n)) : 1 ≤ n ∧ n ≤ cs.length := by
  cases cs with
  | nil => exact absurd h (by simp [matchToken])
  | cons c rest =>
    simp only [matchToken] at h
    split at h
    next =>
      have := (Prod.mk.injEq _ _ _ _).mp (Option.some.inj h)
      simp only [List.length_cons]
      omega
    next =>
      split at h
      next =>
        have := (Prod.mk.injEq _ _ _ _).mp (Option.some.inj h)
        simp only [List.length_cons]
        omega
      next =>
        split at h
        next m hcl =>
          have := (Prod.mk.injEq _ _ _ _).mp (Option.some.inj h)
          have hb := commentLen_bounds hcl
          omega
        next =>
          split at h
          next m hil =>
            have := (Prod.mk.injEq _ _ _ _).mp (Option.some.inj h)
            have h1 := intLen_bounds hil
            have h2 := fracLen_le ((c :: rest).drop m)
            have h3 : ((c :: rest).drop m).length = (c :: rest).length - m :=
              List.length_drop _ _
            omega
          next =>
            split at h
            next =>
              have := (Prod.mk.injEq _ _ _ _).mp (Option.some.inj h)
              have := countWhile_le isIdentContChar rest
              simp only [List.length_cons]
              omega
            next =>
              split at h
              next =>
                have := (Prod.mk.injEq _ _ _ _).mp (Option.some.inj h)
                simp only [List.length_cons]
                omega
              next => exact absurd h (by simp)

/-! ## Structural facts about the lexer loop -/

theorem lexLoop_nil : ∀ (fuel pos : Nat), lexLoop fuel [] pos = [] := by
  intro fuel pos
  cases fuel with
  | zero => rfl
  | succ k => simp [lexLoop, countWhile, matchToken]

/-- The result of `lexLoop` does not depend on the fuel once the fuel
exceeds the number of remaining characters. -/
theorem lexLoop_fuel : ∀ (f1 f2 : Nat) (cs : List Char) (pos : Nat),
    cs.length < f1 → cs.length < f2 → lexLoop f1 cs pos = lexLoop f2 cs pos := by
  intro f1
  induction f1 with
  | zero => intro f2 cs pos h1 _; omega
  | succ k ih =>
    intro f2 cs pos h1 h2
    cases f2 with
    | zero => omega
    | succ m =>
      simp only [lexLoop]
      cases hm : matchToken (cs.drop (countWhile isWsChar cs)) with
      | none => rfl
      | some tn =>
        obtain ⟨t, n⟩ := tn
        simp only
        congr 1
        have hb := matchToken_bounds hm
        have hw := countWhile_le isWsChar cs
        have hlen1 : (cs.drop (countWhile isWsChar cs)).length =
            cs.length - countWhile isWsChar cs := List.length_drop _ _
        have hlen2 : ((cs.drop (countWhile isWsChar cs)).drop n).length =
            (cs.drop (countWhile isWsChar cs)).length - n := List.length_drop _ _
        exact ih m _ _ (by omega) (by omega)

/-- Spans produced by `lexLoop` lie between the current position and the end
of the remaining input, are nonempty, and are chained in order. -/
theorem lexLoop_inv : ∀ (fuel : Nat) (cs : List Char) (pos : Nat),
    (∀ p ∈ lexLoop fuel cs pos,
        pos ≤ p.2.start ∧ p.2.start < p.2.stop ∧ p.2.stop ≤ pos + cs.length)
    ∧ List.Pairwise (fun a b => a.2.stop ≤ b.2.start) (lexLoop fuel cs pos) := by
  intro fuel
  induction fuel with
  | zero => intro cs pos; simp [lexLoop]
  | succ k ih =>
    intro cs pos
    simp only [lexLoop]
    cases hm : matchToken (cs.drop (countWhile isWsChar cs)) with
    | none => simp
    | some tn =>
      obtain ⟨t, n⟩ := tn
      simp only
      have hb := matchToken_bounds hm
      have hw := countWhile_le isWsChar cs
      have hlen1 : (cs.drop (countWhile isWsChar cs)).length =
          cs.length - countWhile isWsChar cs := List.length_drop _ _
      have hlen2 : ((cs.drop (countWhile isWsChar cs)).drop n).length =
          (cs.drop (countWhile isWsChar cs)).length - n := List.length_drop _ _
      obtain ⟨ihmem, ihpw⟩ := ih ((cs.drop (countWhile isWsChar cs)).drop n)
        (pos + countWhile isWsChar cs + n)
      constructor
      · intro p hp
        rcases List.mem_cons.mp hp with hhd | htl
        · subst hhd
          simp only
          omega
        · have := ihmem p htl
          omega
      · refine List.Pairwise.cons ?_ ihpw
        intro b hb2
        have := ihmem b hb2
        simp only
        omega

/-! ## The semantic-token mapping as a filter followed by delta encoding -/

theorem mapSemTokens_eq_deltaEncode (rope : Rope) (ttMap : List (SemanticTokenType × Nat)) :
    ∀ (pre_line pre_column : Nat) (toks : List ImCompleteSemanticToken),
    mapSemTokens rope ttMap pre_line pre_column toks
      = deltaEncode pre_line pre_column (toks.filterMap (resolveToken rope ttMap)) := by
  intro pl pc toks
  induction toks generalizing pl pc with
  | nil => rfl
  | cons t ts ih =>
    cases hr : resolveToken rope ttMap t with
    | none =>
      simp only [List.filterMap_cons, mapSemTokens, hr]
      exact ih pl pc
    | some v =>
      obtain ⟨l, c, i, n⟩ := v
      simp only [List.filterMap_cons, mapSemTokens, hr, deltaEncode]
      rw [ih l c]

/-- A `Backend` as it stands after an `initialize` in which the client
advertised publish-diagnostics capability and the three-entry legend
`[comment, number, variable]`. -/
def exampleBackend : Backend :=
  { publish_diagnostics_capable := true
    rope_map := []
    token_types_map := buildTokenTypesMap
      [SemanticTokenType.COMMENT, SemanticTokenType.NUMBER, SemanticTokenType.VARIABLE]
    semantic_token_map := [] }

/-! ## Claim theorems -/

/-- Claim C1, counterexample.  The claim says that when no grammar rule
matches, the lexer skips the invalid character, records a recoverable lex
error, and continues, so tokens after an unrecognized character still appear.
On the input "a # b" the code instead stops at the unmatched character: only
the identifier "a" before the `#` is tokenized, the identifier "b" after it
is absent, and the error list is empty — no recoverable error is recorded. -/
theorem claim_C1_counterexample :
    lexer "a # b" = [(Token.Ident "a", ⟨0, 1⟩)]
    ∧ parse "a # b" =
        { semantic_tokens := [⟨0, 1, SemanticTokenType.VARIABLE⟩], parse_errors := [] } :=
  ⟨by decide, by decide⟩

/-- Claim C1, amended.  For every input string `parse` returns without a
fatal error a (possibly empty) semantic-token list and an error list, but the
error list is always empty and there is no recovery: at the first position
where no grammar rule matches the lexer stops scanning, so for any input
beginning with an unrecognized character (such as `#`) the token list and the
semantic-token list are empty — tokens after the unrecognized character never
appear. -/
theorem claim_C1_amended :
    (∀ source : String, (parse source).parse_errors = [])
    ∧ (∀ cs : List Char,
        lexer (String.mk ('#' :: cs)) = []
        ∧ (parse (String.mk ('#' :: cs))).semantic_tokens = []) := by
  constructor
  · intro source; rfl
  · intro cs
    have hws : isWsChar '#' = false := by decide
    have h1 : ('#' : Char) ≠ '(' := by decide
    have h2 : ('#' : Char) ≠ ')' := by decide
    have h3 : ('#' : Char) ≠ ';' := by decide
    have h4 : isDigitChar '#' = false := by decide
    have h5 : isIdentStartChar '#' = false := by decide
    have h6 : isOpChar '#' = false := by decide
    have h7 : ('#' : Char) ≠ '0' := by decide
    have hcl : commentLen ('#' :: cs) = none := by
      simp [commentLen, countWhile, hws, h3]
    have hil : intLen ('#' :: cs) = none := by
      simp [intLen, h4, h7]
    have hmt : matchToken ('#' :: cs) = none := by
      simp [matchToken, h1, h2, hcl, hil, h5, h6]
    have hlex : lexer (String.mk ('#' :: cs)) = [] := by
      show lexLoop (('#' :: cs).length + 1) ('#' :: cs) 0 = []
      simp only [List.length_cons, lexLoop]
      simp [countWhile, hws, hmt]
    refine ⟨hlex, ?_⟩
    simp [parse, parse_recovery, hlex]

/-- Claim C3, counterexample.  The claim says a Comment span runs up to and
NOT including the next line terminator.  On ";⏎x" the Comment's span is
[0, 2), which includes the line terminator at index 1 (the `take_until` in
the comment rule consumes the newline it stops at). -/
theorem claim_C3_counterexample :
    lexer ";\nx" = [(Token.Comment, ⟨0, 2⟩), (Token.Ident "x", ⟨2, 3⟩)]
    ∧ (";\nx").data[1]? = some '\n' :=
  ⟨by decide, by decide⟩

/-- Claim C4.  Delta encoding of the emitted positions: a token resolved to
absolute `(line, column)` is emitted as `(line - previous_line,
column - previous_column)` when on the same line as the previously emitted
token and as `(line - previous_line, column)` otherwise, the first token
being measured against the initial `(0, 0)` state, i.e. emitted absolute; in
particular tokens at absolute positions (0,0), (0,5), (1,0) are emitted with
deltas (0,0), (0,5), (1,0). -/
theorem claim_C4 :
    (∀ (pre_line pre_column line column idx len : Nat) (rest : List (Nat × Nat × Nat × Nat)),
      pre_line ≤ line →
      deltaEncode pre_line pre_column ((line, column, idx, len) :: rest)
        = { delta_line := line - pre_line
            delta_start := if line = pre_line then column - pre_column else column
            length := len
            token_type := idx
            token_modifiers_bitset := 0 } :: deltaEncode line column rest)
    ∧ semantic_tokens_full (compile exampleBackend "file:///a" "abcd xyz\nqrs").1 "file:///a"
        = Except.ok (some [⟨0, 0, 4, 2, 0⟩, ⟨0, 5, 3, 2, 0⟩, ⟨1, 0, 3, 2, 0⟩]) := by
  constructor
  · intro pl pc l c i n rest hle
    simp only [deltaEncode]
    by_cases h : l = pl
    · subst h; simp
    · rw [if_neg (by omega), if_neg h]
  · rfl

/-- Claim C4, witness: the generic delta-encoding step applied at the
concrete pre-state (0,0) and absolute position (1,7). -/
theorem claim_C4_witness :
    0 ≤ 1
    ∧ deltaEncode 0 0 [(1, 7, 2, 3)]
        = [{ delta_line := 1, delta_start := 7, length := 3, token_type := 2,
             token_modifiers_bitset := 0 }] := by
  refine ⟨Nat.zero_le 1, ?_⟩
  rw [claim_C4.1 0 0 1 7 2 3 [] (Nat.zero_le 1)]
  rfl

/-- Claim C5 (code bug), divergence witness.  The claim says columns are
measured in character-count granularity so that a line holding one
3-byte-encoded character followed by an identifier reports the identifier at
column 2.  In the code, (a) an identifier directly after an unrecognized
multi-byte character is never tokenized at all (the lexer stops, so "あx"
yields nothing), and (b) where a multi-byte character does occur (inside a
comment), the token start — a chumsky character index — is fed to ropey's
byte-indexed queries: in "; あ⏎x" the identifier `x` has char index 4, which
as a byte offset lands inside the 3-byte `あ`, so `x` is reported on line 0
column 2 instead of its true position line 1 column 0. -/
theorem claim_C5_code_divergence :
    lexer (String.mk ['あ', 'x']) = []
    ∧ (parse (String.mk ['あ', 'x'])).semantic_tokens = []
    ∧ semantic_tokens_full
        (compile exampleBackend "file:///m" (String.mk [';', ' ', 'あ', '\n', 'x'])).1
        "file:///m"
        = Except.ok (some [⟨0, 0, 4, 0, 0⟩, ⟨0, 2, 1, 2, 0⟩]) :=
  ⟨by decide, by decide, rfl⟩

/-- Claim C6.  The emitted semantic-token list is exactly the delta encoding
of the resolvable tokens: a token whose recorded span start cannot be
resolved against the current snapshot (in particular any start beyond the
rope's byte length) or whose category has no index in the negotiated legend
is silently omitted — it contributes nothing to the output and no error —
while every token that resolves is emitted (the `filterMap` form keeps all
of them, in order). -/
theorem claim_C6 (rope : Rope) (ttMap : List (SemanticTokenType × Nat))
    (pre_line pre_column : Nat) (toks : List ImCompleteSemanticToken) :
    mapSemTokens rope ttMap pre_line pre_column toks
      = deltaEncode pre_line pre_column (toks.filterMap (resolveToken rope ttMap))
    ∧ (∀ t : ImCompleteSemanticToken, rope.len_bytes < t.start →
        resolveToken rope ttMap t = none)
    ∧ (∀ t : ImCompleteSemanticToken, lookupAssoc ttMap t.token_type = none →
        resolveToken rope ttMap t = none) := by
  refine ⟨mapSemTokens_eq_deltaEncode rope ttMap pre_line pre_column toks, ?_, ?_⟩
  · intro t ht
    simp only [resolveToken, Rope.try_byte_to_line]
    rw [if_neg (by omega)]
  · intro t ht
    cases h1 : rope.try_byte_to_line t.start with
    | none => simp [resolveToken, h1]
    | some line =>
      cases h2 : rope.try_line_to_char line with
      | none => simp [resolveToken, h1, h2]
      | some line_first =>
        cases h3 : rope.try_byte_to_char t.start with
        | none => simp [resolveToken, h1, h2, h3]
        | some char_idx => simp [resolveToken, h1, h2, h3, ht]

/-- Claim C6, witness: over the two-byte document "ab" with only COMMENT
negotiated, a stale token starting at byte 5 and a NUMBER token are both
dropped, and the mapping equals the delta encoding of the resolvable rest. -/
theorem claim_C6_witness :
    (Rope.from_str "ab").len_bytes < 5
    ∧ resolveToken (Rope.from_str "ab") [(SemanticTokenType.COMMENT, 0)]
        ⟨5, 1, SemanticTokenType.COMMENT⟩ = none
    ∧ resolveToken (Rope.from_str "ab") [(SemanticTokenType.COMMENT, 0)]
        ⟨1, 1, SemanticTokenType.NUMBER⟩ = none
    ∧ mapSemTokens (Rope.from_str "ab") [(SemanticTokenType.COMMENT, 0)] 0 0
        [⟨0, 1, SemanticTokenType.COMMENT⟩, ⟨5, 1, SemanticTokenType.COMMENT⟩,
         ⟨1, 1, SemanticTokenType.NUMBER⟩]
      = deltaEncode 0 0
          ([⟨0, 1, SemanticTokenType.COMMENT⟩, ⟨5, 1, SemanticTokenType.COMMENT⟩,
            ⟨1, 1, SemanticTokenType.NUMBER⟩].filterMap
            (resolveToken (Rope.from_str "ab") [(SemanticTokenType.COMMENT, 0)])) := by
  have h := claim_C6 (Rope.from_str "ab") [(SemanticTokenType.COMMENT, 0)] 0 0
    [⟨0, 1, SemanticTokenType.COMMENT⟩, ⟨5, 1, SemanticTokenType.COMMENT⟩,
     ⟨1, 1, SemanticTokenType.NUMBER⟩]
  exact ⟨by decide, h.2.1 _ (by decide), h.2.2 _ (by decide), h.1⟩

/-- Claim C9.  `did_close` leaves the whole backend state unchanged — in
particular the stored rope and cached semantic tokens survive — it publishes
an empty diagnostics list (when the client advertised the capability), and a
subsequent `semantic_tokens_full` request for the closed document's uri
returns exactly what it returned before the close, i.e. the tokens computed
from the last `compile`. -/
theorem claim_C9 (b : Backend) (uri src : String) :
    (did_close (compile b uri src).1 uri).1 = (compile b uri src).1
    ∧ (b.publish_diagnostics_capable = true →
        (did_close (compile b uri src).1 uri).2 = some [])
    ∧ semantic_tokens_full (did_close (compile b uri src).1 uri).1 uri
        = semantic_tokens_full (compile b uri src).1 uri := by
  refine ⟨rfl, ?_, rfl⟩
  intro h
  simp [did_close, compile, h]

/-- Claim C9, witness: compile "(1)", close the document, and the request
still answers with the NUMBER token of the last compile. -/
theorem claim_C9_witness :
    exampleBackend.publish_diagnostics_capable = true
    ∧ (did_close (compile exampleBackend "file:///c" "(1)").1 "file:///c").2 = some []
    ∧ semantic_tokens_full
        (did_close (compile exampleBackend "file:///c" "(1)").1 "file:///c").1 "file:///c"
        = Except.ok (some [⟨0, 1, 1, 1, 0⟩]) := by
  have h := claim_C9 exampleBackend "file:///c" "(1)"
  refine ⟨rfl, h.2.1 rfl, ?_⟩
  rw [h.2.2]
  rfl

/-- Claim C10.  A `semantic_tokens_full` request for a uri that was never
compiled — no stored rope, or no stored semantic-token entry — answers with
the successful response `Ok(None)`, not with an error and not with an empty
token list. -/
theorem claim_C10 (b : Backend) (uri : String)
    (h : lookupAssoc b.rope_map uri = none ∨ lookupAssoc b.semantic_token_map uri = none) :
    semantic_tokens_full b uri = Except.ok none := by
  rcases h with h | h
  · simp [semantic_tokens_full, h]
  · cases hr : lookupAssoc b.rope_map uri with
    | none => simp [semantic_tokens_full, hr]
    | some rope => simp [semantic_tokens_full, hr, h]

/-- Claim C10, witness: the freshly initialized backend has no entry for the
uri and the request answers `Ok(None)`. -/
theorem claim_C10_witness :
    lookupAssoc exampleBackend.rope_map "file:///never" = none
    ∧ semantic_tokens_full exampleBackend "file:///never" = Except.ok none :=
  ⟨rfl, claim_C10 exampleBackend "file:///never" (Or.inl rfl)⟩

/-! ## Character-class facts -/

theorem pred_ne {p : Char → Bool} {c d : Char} (h : p c = true) (hd : p d = false) : c ≠ d := by
  intro he
  subst he
  rw [h] at hd
  simp at hd

theorem digit_not_ws {c : Char} (h : isDigitChar c = true) : isWsChar c = false := by
  cases hws : isWsChar c with
  | false => rfl
  | true =>
    exfalso
    simp only [isDigitChar, Bool.and_eq_true, decide_eq_true_eq] at h
    simp only [isWsChar, Bool.or_eq_true, Bool.and_eq_true, decide_eq_true_eq, beq_iff_eq] at hws
    omega

theorem identStart_not_ws {c : Char} (h : isIdentStartChar c = true) : isWsChar c = false := by
  cases hws : isWsChar c with
  | false => rfl
  | true =>
    exfalso
    simp only [isIdentStartChar, isAsciiAlphaChar, Bool.or_eq_true, Bool.and_eq_true,
      decide_eq_true_eq, beq_iff_eq] at h
    simp only [isWsChar, Bool.or_eq_true, Bool.and_eq_true, decide_eq_true_eq, beq_iff_eq] at hws
    omega

theorem identStart_not_digit {c : Char} (h : isIdentStartChar c = true) : isDigitChar c = false := by
  cases hd : isDigitChar c with
  | false => rfl
  | true =>
    exfalso
    simp only [isIdentStartChar, isAsciiAlphaChar, Bool.or_eq_true, Bool.and_eq_true,
      decide_eq_true_eq, beq_iff_eq] at h
    simp only [isDigitChar, Bool.and_eq_true, decide_eq_true_eq] at hd
    omega

theorem op_not_ws {c : Char} (h : isOpChar c = true) : isWsChar c = false := by
  cases hws : isWsChar c with
  | false => rfl
  | true =>
    exfalso
    simp only [isOpChar, Bool.or_eq_true, beq_iff_eq] at h
    simp only [isWsChar, Bool.or_eq_true, Bool.and_eq_true, decide_eq_true_eq, beq_iff_eq] at hws
    omega

theorem op_not_digit {c : Char} (h : isOpChar c = true) : isDigitChar c = false := by
  cases hd : isDigitChar c with
  | false => rfl
  | true =>
    exfalso
    simp only [isOpChar, Bool.or_eq_true, beq_iff_eq] at h
    simp only [isDigitChar, Bool.and_eq_true, decide_eq_true_eq] at hd
    omega

theorem op_not_identStart {c : Char} (h : isOpChar c = true) : isIdentStartChar c = false := by
  cases hi : isIdentStartChar c with
  | false => rfl
  | true =>
    exfalso
    simp only [isOpChar, Bool.or_eq_true, beq_iff_eq] at h
    simp only [isIdentStartChar, isAsciiAlphaChar, Bool.or_eq_true, Bool.and_eq_true,
      decide_eq_true_eq, beq_iff_eq] at hi
    omega

/-! ## `countWhile` arithmetic -/

theorem countWhile_head_false {p : Char → Bool} {c : Char} (h : p c = false) (cs : List Char) :
    countWhile p (c :: cs) = 0 := by
  simp [countWhile, h]

theorem countWhile_append_all {p : Char → Bool} {xs : List Char}
    (h : ∀ x ∈ xs, p x = true) (ys : List Char) :
    countWhile p (xs ++ ys) = xs.length + countWhile p ys := by
  induction xs with
  | nil => simp
  | cons x tl ih =>
    have hx : p x = true := h x (List.mem_cons_self _ _)
    simp only [List.cons_append, countWhile, hx, if_true, List.length_cons, List.append_eq]
    rw [ih (fun y hy => h y (List.mem_cons_of_mem _ hy))]
    omega

/-- Separator condition for the renders below: the remaining input is empty
or starts with a space. -/
def sepOk : List Char → Bool
  | [] => true
  | c :: _ => c == ' '

theorem countWhile_sep {p : Char → Bool} {rest : List Char} (hr : sepOk rest = true)
    (hp : p ' ' = false) : countWhile p rest = 0 := by
  cases rest with
  | nil => rfl
  | cons c tl =>
    have hc : c = ' ' := by simpa [sepOk] using hr
    subst hc
    exact countWhile_head_false hp tl

theorem fracLen_sep {rest : List Char} (hr : sepOk rest = true) : fracLen rest = 0 := by
  cases rest with
  | nil => rfl
  | cons c tl =>
    have hc : c = ' ' := by simpa [sepOk] using hr
    subst hc
    simp [fracLen, show (' ' : Char) ≠ '.' from by decide]

/-! ## Grammar atoms: the valid parenthesis/atom sequences of the spec -/

/-- The characters contributed by the optional fractional part of a number. -/
def fracText : Option (List Char) → List Char
  | none => []
  | some ds => '.' :: ds

/-- One atom of a valid parenthesis/atom sequence: a parenthesis, a number
(integer part plus optional fractional digits), an identifier, or one of the
operator characters. -/
inductive Atom where
  | lparenA
  | rparenA
  | numberA (ip : List Char) (fp : Option (List Char))
  | identA (cs : List Char)
  | opA (c : Char)
deriving DecidableEq, Repr

/-- The source text of an atom. -/
def atomText : Atom → List Char
  | .lparenA => ['(']
  | .rparenA => [')']
  | .numberA ip fp => ip ++ fracText fp
  | .identA cs => cs
  | .opA c => [c]

/-- The token the grammar assigns to an atom. -/
def atomToken : Atom → Token
  | .lparenA => Token.LParen
  | .rparenA => Token.RParen
  | .numberA ip fp => Token.Number (String.mk (ip ++ fracText fp))
  | .identA cs => Token.Ident (String.mk cs)
  | .opA c => Token.Ident (String.mk [c])

/-- A well-formed integer part per `text::int(10)`: a nonzero digit followed
by digits, or the single digit `0`. -/
def intOkb : List Char → Bool
  | [] => false
  | c :: rest =>
    (isDigitChar c && !(c == '0') && rest.all isDigitChar) || ((c == '0') && rest.isEmpty)

/-- A well-formed optional fractional part: absent, or one-or-more digits. -/
def fracOkb : Option (List Char) → Bool
  | none => true
  | some ds => !ds.isEmpty && ds.all isDigitChar

/-- Well-formedness of an atom with respect to the grammar. -/
def atomOk : Atom → Bool
  | .lparenA => true
  | .rparenA => true
  | .numberA ip fp => intOkb ip && fracOkb fp
  | .identA cs =>
    match cs with
    | c :: rest => isIdentStartChar c && rest.all isIdentContChar
    | [] => false
  | .opA c => isOpChar c

theorem intOkb_head_digit {c : Char} {tl : List Char} (h : intOkb (c :: tl) = true) :
    isDigitChar c = true := by
  simp only [intOkb, Bool.or_eq_true, Bool.and_eq_true] at h
  rcases h with ⟨⟨h1, _⟩, _⟩ | ⟨h1, _⟩
  · exact h1
  · have hc : c = '0' := by simpa using h1
    subst hc
    decide

theorem intLen_atom {ip zs : List Char} (h : intOkb ip = true)
    (hz : countWhile isDigitChar zs = 0) :
    intLen (ip ++ zs) = some ip.length := by
  cases ip with
  | nil => simp [intOkb] at h
  | cons c tl =>
    simp only [intOkb, Bool.or_eq_true, Bool.and_eq_true, Bool.not_eq_true', beq_iff_eq,
      beq_eq_false_iff_ne, ne_eq, List.all_eq_true, List.isEmpty_iff] at h
    rcases h with ⟨⟨hd, hne⟩, hall⟩ | ⟨hc, hrest⟩
    · simp only [List.cons_append, intLen, List.length_cons]
      rw [if_pos ⟨hd, hne⟩, countWhile_append_all hall zs, hz]
      simp
      omega
    · subst hc
      subst hrest
      simp [intLen]

theorem fracLen_atom {fp : Option (List Char)} {rest : List Char} (h : fracOkb fp = true)
    (hr : sepOk rest = true) :
    fracLen (fracText fp ++ rest) = (fracText fp).length := by
  cases fp with
  | none => simpa [fracText] using fracLen_sep hr
  | some ds =>
    simp only [fracOkb, Bool.and_eq_true, Bool.not_eq_true', List.all_eq_true] at h
    obtain ⟨hne, hall⟩ := h
    have hlen : ds.length ≠ 0 := by
      cases ds with
      | nil => simp at hne
      | cons d dtl => simp
    simp only [fracText, List.cons_append, fracLen, List.length_cons]
    rw [countWhile_append_all hall rest, countWhile_sep hr (by decide)]
    rw [if_pos ⟨trivial, by omega⟩]
    omega

/-! ## One-token characterization on atom renders -/

theorem countWhile_digit_fracSep {fp : Option (List Char)} {rest : List Char}
    (hr : sepOk rest = true) :
    countWhile isDigitChar (fracText fp ++ rest) = 0 := by
  cases fp with
  | none => simpa [fracText] using countWhile_sep hr (by decide)
  | some ds =>
    simp only [fracText, List.cons_append]
    exact countWhile_head_false (by decide) _

theorem matchAtom_number {ip : List Char} {fp : Option (List Char)} {rest : List Char}
    (hip : intOkb ip = true) (hfp : fracOkb fp = true) (hr : sepOk rest = true) :
    matchToken ((ip ++ fracText fp) ++ rest)
      = some (Token.Number (String.mk (ip ++ fracText fp)), (ip ++ fracText fp).length) := by
  obtain ⟨c, tl, rfl⟩ : ∃ c tl, ip = c :: tl := by
    cases ip with
    | nil => simp [intOkb] at hip
    | cons c tl => exact ⟨c, tl, rfl⟩
  have hd : isDigitChar c = true := intOkb_head_digit hip
  have h1 : c ≠ '(' := pred_ne hd (by decide)
  have h2 : c ≠ ')' := pred_ne hd (by decide)
  have h3 : c ≠ ';' := pred_ne hd (by decide)
  have hws : isWsChar c = false := digit_not_ws hd
  have hz : countWhile isDigitChar (fracText fp ++ rest) = 0 := countWhile_digit_fracSep hr
  have hil : intLen ((c :: tl) ++ (fracText fp ++ rest)) = some (c :: tl).length :=
    intLen_atom hip hz
  have hfl : fracLen (fracText fp ++ rest) = (fracText fp).length := fracLen_atom hfp hr
  have hcl : commentLen (c :: (tl ++ (fracText fp ++ rest))) = none := by
    simp [commentLen, countWhile_head_false hws, h3]
  have hshape : (c :: tl ++ fracText fp) ++ rest = c :: (tl ++ (fracText fp ++ rest)) := by
    simp [List.append_assoc]
  rw [hshape]
  rw [List.cons_append] at hil
  simp only [matchToken, hcl, hil]
  rw [if_neg h1, if_neg h2]
  have hdrop : (tl ++ (fracText fp ++ rest)).drop tl.length = fracText fp ++ rest :=
    List.drop_left tl (fracText fp ++ rest)
  have htake : (tl ++ (fracText fp ++ rest)).take (tl.length + (fracText fp).length)
      = tl ++ fracText fp := by
    rw [show tl ++ (fracText fp ++ rest) = (tl ++ fracText fp) ++ rest by
      simp [List.append_assoc]]
    have := List.take_left (tl ++ fracText fp) rest
    simpa using this
  simp only [List.length_cons, List.drop_succ_cons, hdrop, hfl]
  have hidx : tl.length + 1 + (fracText fp).length = (tl.length + (fracText fp).length) + 1 := by
    omega
  rw [hidx, List.take_succ_cons, htake]
  simp only [Option.some.injEq, Prod.mk.injEq, List.cons_append, List.length_cons,
    List.length_append, true_and]

theorem matchAtom_ident {c : Char} {tl rest : List Char}
    (hs : isIdentStartChar c = true) (hall : ∀ x ∈ tl, isIdentContChar x = true)
    (hr : sepOk rest = true) :
    matchToken ((c :: tl) ++ rest)
      = some (Token.Ident (String.mk (c :: tl)), (c :: tl).length) := by
  have h1 : c ≠ '(' := pred_ne hs (by decide)
  have h2 : c ≠ ')' := pred_ne hs (by decide)
  have h3 : c ≠ ';' := pred_ne hs (by decide)
  have h4 : c ≠ '0' := pred_ne hs (by decide)
  have hws : isWsChar c = false := identStart_not_ws hs
  have hdg : isDigitChar c = false := identStart_not_digit hs
  have hcl : commentLen (c :: (tl ++ rest)) = none := by
    simp [commentLen, countWhile_head_false hws, h3]
  have hil : intLen (c :: (tl ++ rest)) = none := by
    simp [intLen, hdg, h4]
  have hcw : countWhile isIdentContChar (tl ++ rest) = tl.length := by
    rw [countWhile_append_all hall, countWhile_sep hr (by decide)]
    omega
  have htake : (tl ++ rest).take tl.length = tl := List.take_left tl rest
  simp only [List.cons_append, matchToken, hcl, hil]
  rw [if_neg h1, if_neg h2, if_pos hs]
  simp only [hcw, List.length_cons, List.take_succ_cons]
  rw [show 1 + tl.length = tl.length + 1 from by omega]
  simp [htake]

theorem matchAtom_op {c : Char} (rest : List Char) (hs : isOpChar c = true) :
    matchToken (c :: rest) = some (Token.Ident (String.mk [c]), 1) := by
  have h1 : c ≠ '(' := pred_ne hs (by decide)
  have h2 : c ≠ ')' := pred_ne hs (by decide)
  have h3 : c ≠ ';' := pred_ne hs (by decide)
  have h4 : c ≠ '0' := pred_ne hs (by decide)
  have hws : isWsChar c = false := op_not_ws hs
  have hdg : isDigitChar c = false := op_not_digit hs
  have hist : isIdentStartChar c = false := op_not_identStart hs
  have hcl : commentLen (c :: rest) = none := by
    simp [commentLen, countWhile_head_false hws, h3]
  have hil : intLen (c :: rest) = none := by
    simp [intLen, hdg, h4]
  simp only [matchToken, hcl, hil]
  rw [if_neg h1, if_neg h2, if_neg (by simp [hist]), if_pos hs]

/-- Every well-formed atom's text is nonempty and starts with a
non-whitespace character. -/
theorem atom_head {a : Atom} (ha : atomOk a = true) :
    ∃ c tl, atomText a = c :: tl ∧ isWsChar c = false := by
  cases a with
  | lparenA => exact ⟨'(', [], rfl, by decide⟩
  | rparenA => exact ⟨')', [], rfl, by decide⟩
  | numberA ip fp =>
    cases ip with
    | nil => simp [atomOk, intOkb] at ha
    | cons c tl =>
      have hd : isDigitChar c = true := by
        simp only [atomOk, Bool.and_eq_true] at ha
        exact intOkb_head_digit ha.1
      exact ⟨c, tl ++ fracText fp, by simp [atomText], digit_not_ws hd⟩
  | identA cs =>
    cases cs with
    | nil => simp [atomOk] at ha
    | cons c tl =>
      have hs : isIdentStartChar c = true := by
        simp only [atomOk, Bool.and_eq_true] at ha
        exact ha.1
      exact ⟨c, tl, rfl, identStart_not_ws hs⟩
  | opA c =>
    have hs : isOpChar c = true := by simpa [atomOk] using ha
    exact ⟨c, [], rfl, op_not_ws hs⟩

/-- On a well-formed atom followed by a separator, the `token` alternative
matches exactly the atom's text and produces the grammar's token. -/
theorem matchAtom (a : Atom) (rest : List Char) (ha : atomOk a = true)
    (hr : sepOk rest = true) :
    matchToken (atomText a ++ rest) = some (atomToken a, (atomText a).length) := by
  cases a with
  | lparenA => simp [atomText, atomToken, matchToken]
  | rparenA =>
    simp [atomText, atomToken, matchToken, show (')' : Char) ≠ '(' from by decide]
  | numberA ip fp =>
    simp only [atomOk, Bool.and_eq_true] at ha
    exact matchAtom_number ha.1 ha.2 hr
  | identA cs =>
    cases cs with
    | nil => simp [atomOk] at ha
    | cons c tl =>
      simp only [atomOk, Bool.and_eq_true, List.all_eq_true] at ha
      exact matchAtom_ident ha.1 ha.2 hr
  | opA c =>
    have hs : isOpChar c = true := by simpa [atomOk] using ha
    simpa [atomText, atomToken] using matchAtom_op rest hs

/-! ## Lexing a rendered atom sequence -/

/-- Render a sequence of atoms as source text, one space after each atom. -/
def renderAtoms : List Atom → List Char
  | [] => []
  | a :: rest => atomText a ++ ' ' :: renderAtoms rest

/-- The token/span list the grammar assigns to a rendered atom sequence
starting at position `pos`. -/
def expectedToks : List Atom → Nat → List (Token × Span)
  | [], _ => []
  | a :: rest, pos =>
    (atomToken a, ⟨pos, pos + (atomText a).length⟩)
      :: expectedToks rest (pos + (atomText a).length + 1)

/-- A leading whitespace character is absorbed by the padding: the loop
continues one position further with the same fuel. -/
theorem lexLoop_cons_ws {c : Char} (hc : isWsChar c = true) (f : Nat) (cs : List Char)
    (pos : Nat) : lexLoop (f + 1) (c :: cs) pos = lexLoop (f + 1) cs (pos + 1) := by
  simp only [lexLoop]
  have hw : countWhile isWsChar (c :: cs) = countWhile isWsChar cs + 1 := by
    simp [countWhile, hc]
  rw [hw]
  simp only [List.drop_succ_cons]
  have e1 : pos + (countWhile isWsChar cs + 1) = pos + 1 + countWhile isWsChar cs := by omega
  rw [e1]

theorem lexLoop_render : ∀ (atoms : List Atom) (fuel pos : Nat),
    (∀ a ∈ atoms, atomOk a = true) → (renderAtoms atoms).length < fuel →
    lexLoop fuel (renderAtoms atoms) pos = expectedToks atoms pos := by
  intro atoms
  induction atoms with
  | nil =>
    intro fuel pos _ hf
    simp only [renderAtoms, expectedToks]
    exact lexLoop_nil fuel pos
  | cons a rest ih =>
    intro fuel pos hok hf
    have ha : atomOk a = true := hok a (List.mem_cons_self _ _)
    obtain ⟨c, tl, htext, hcws⟩ := atom_head ha
    simp only [renderAtoms] at hf ⊢
    cases fuel with
    | zero =>
      simp only [List.length_append, List.length_cons] at hf
      omega
    | succ k =>
      have hw : countWhile isWsChar (atomText a ++ ' ' :: renderAtoms rest) = 0 := by
        rw [htext, List.cons_append]
        exact countWhile_head_false hcws _
      have hm := matchAtom a (' ' :: renderAtoms rest) ha (by simp [sepOk])
      simp only [lexLoop, hw, List.drop_zero, hm]
      have hdrop : (atomText a ++ ' ' :: renderAtoms rest).drop (atomText a).length
          = ' ' :: renderAtoms rest := List.drop_left _ _
      rw [hdrop]
      have hlen1 : 1 ≤ (atomText a).length := by rw [htext]; simp
      have hk : 1 ≤ k := by
        simp only [List.length_append, List.length_cons] at hf
        omega
      obtain ⟨m, rfl⟩ : ∃ m, k = m + 1 := ⟨k - 1, by omega⟩
      rw [lexLoop_cons_ws (by decide) m (renderAtoms rest) (pos + 0 + (atomText a).length)]
      rw [ih (m + 1) (pos + 0 + (atomText a).length + 1)
        (fun x hx => hok x (List.mem_cons_of_mem _ hx))
        (by simp only [List.length_append, List.length_cons] at hf; omega)]
      simp only [expectedToks, Nat.add_zero]

/-! ## Remaining claim theorems -/

/-- Claim C2.  Lexing a valid parenthesis/atom sequence yields exactly the
token sequence the grammar assigns (rules tried in the order lparen, rparen,
comment, number, ident; first match wins — the order is the definition of
`matchToken`): for every well-formed atom sequence the lexer produces
precisely the corresponding tokens with their spans, and in particular
"(+ 1 2)" lexes to OpenParen, Identifier "+", Number "1", Number "2",
CloseParen. -/
theorem claim_C2 :
    lexer "(+ 1 2)" =
      [(Token.LParen, ⟨0, 1⟩), (Token.Ident "+", ⟨1, 2⟩), (Token.Number "1", ⟨3, 4⟩),
       (Token.Number "2", ⟨5, 6⟩), (Token.RParen, ⟨6, 7⟩)]
    ∧ ∀ atoms : List Atom, (∀ a ∈ atoms, atomOk a = true) →
        lexer (String.mk (renderAtoms atoms)) = expectedToks atoms 0 := by
  refine ⟨by decide, ?_⟩
  intro atoms hok
  show lexLoop ((renderAtoms atoms).length + 1) (renderAtoms atoms) 0 = expectedToks atoms 0
  exact lexLoop_render atoms _ 0 hok (by omega)

/-- Claim C2, witness: the atom sequence `( + 1 2 )` (space-separated
render) lexes to exactly the grammar's token sequence. -/
theorem claim_C2_witness :
    (∀ a ∈ [Atom.lparenA, Atom.opA '+', Atom.numberA ['1'] none,
            Atom.numberA ['2'] none, Atom.rparenA], atomOk a = true)
    ∧ lexer (String.mk (renderAtoms [Atom.lparenA, Atom.opA '+', Atom.numberA ['1'] none,
        Atom.numberA ['2'] none, Atom.rparenA]))
      = expectedToks [Atom.lparenA, Atom.opA '+', Atom.numberA ['1'] none,
          Atom.numberA ['2'] none, Atom.rparenA] 0 := by
  refine ⟨by decide, ?_⟩
  exact claim_C2.2 _ (by decide)

/-- Claim C7.  A decimal integer, optionally followed by a dot and one or
more digits, lexes as one single Number token carrying the exact matched
text and spanning the whole input; in particular "3.14" is one Number token
with text "3.14" (so not Number "3", Identifier ".", Number "14"). -/
theorem claim_C7 (ip : List Char) (fp : Option (List Char))
    (h1 : intOkb ip = true) (h2 : fracOkb fp = true) :
    lexer (String.mk (ip ++ fracText fp))
      = [(Token.Number (String.mk (ip ++ fracText fp)), ⟨0, (ip ++ fracText fp).length⟩)] := by
  have hok : atomOk (Atom.numberA ip fp) = true := by simp [atomOk, h1, h2]
  obtain ⟨c, tl, htext, hcws⟩ := atom_head hok
  simp only [atomText] at htext
  have hm := matchAtom (Atom.numberA ip fp) [] hok rfl
  rw [List.append_nil] at hm
  simp only [atomText, atomToken] at hm
  show lexLoop ((ip ++ fracText fp).length + 1) (ip ++ fracText fp) 0 = _
  have hw : countWhile isWsChar (ip ++ fracText fp) = 0 := by
    rw [htext]
    exact countWhile_head_false hcws _
  simp only [lexLoop, hw, List.drop_zero, hm, List.drop_length]
  rw [lexLoop_nil]
  simp

/-- Claim C7, witness: the general theorem applied at "3.14". -/
theorem claim_C7_witness :
    intOkb ['3'] = true ∧ fracOkb (some ['1', '4']) = true
    ∧ lexer "3.14" = [(Token.Number "3.14", ⟨0, 4⟩)] := by
  refine ⟨by decide, by decide, ?_⟩
  exact claim_C7 ['3'] (some ['1', '4']) (by decide) (by decide)

/-- Claim C8.  For every input string, every span of the lex pass satisfies
`start ≤ stop ≤ source byte length` (the chumsky char-index spans are bounded
by the character count, which is at most the byte count), and the spans are
pairwise non-overlapping (`stop ≤` next `start`) and strictly ascending in
source order. -/
theorem claim_C8 (s : String) :
    (∀ p ∈ lexer s, p.2.start ≤ p.2.stop ∧ p.2.stop ≤ (Rope.from_str s).len_bytes)
    ∧ List.Pairwise (fun a b => a.2.stop ≤ b.2.start) (lexer s)
    ∧ List.Pairwise (fun a b => a.2.start < b.2.start) (lexer s) := by
  obtain ⟨hmem, hpw⟩ := lexLoop_inv (s.data.length + 1) s.data 0
  have hcb : s.data.length ≤ (Rope.from_str s).len_bytes := by
    show s.data.length ≤ (s.data.map utf8Len).sum
    induction s.data with
    | nil => simp
    | cons c tl ih =>
      have hpos : 1 ≤ utf8Len c := by
        unfold utf8Len
        repeat' split
        all_goals omega
      simp only [List.map_cons, List.sum_cons, List.length_cons]
      omega
  refine ⟨?_, hpw, ?_⟩
  · intro p hp
    have := hmem p hp
    omega
  · refine List.Pairwise.imp_of_mem ?_ hpw
    intro a b hain hbin hab
    have ha2 := hmem a hain
    have hb2 := hmem b hbin
    omega

/-- Claim C8, witness: the span facts instantiated on "(+ 1 2)" at its first
token. -/
theorem claim_C8_witness :
    (Token.LParen, (⟨0, 1⟩ : Span)) ∈ lexer "(+ 1 2)"
    ∧ 0 ≤ 1 ∧ 1 ≤ (Rope.from_str "(+ 1 2)").len_bytes := by
  refine ⟨by decide, ?_⟩
  exact (claim_C8 "(+ 1 2)").1 (Token.LParen, (⟨0, 1⟩ : Span)) (by decide)

/-! ## The general comment-span rule (claim C3) -/

/-- A line-terminator chunk exactly as the comment rule's
`text::newline()` consumes it: a CRLF pair, or a single break character that
does not form a CRLF pair with the text that follows it. -/
def TermOk (term after : List Char) : Prop :=
  term = ['\r', '\n']
  ∨ ∃ t, term = [t] ∧ isNlChar t = true ∧ (t = '\r' → after.head? ≠ some '\n')

/-- The remaining input does not begin with whitespace, so the comment
rule's trailing padding stops in front of it. -/
def NoWsHead : List Char → Prop
  | [] => True
  | c :: _ => isWsChar c = false

theorem takeUntilNL_append_noNL {body : List Char} (h : ∀ c ∈ body, isNlChar c = false)
    (X : List Char) : takeUntilNL (body ++ X) = body.length + takeUntilNL X := by
  induction body with
  | nil => simp
  | cons c tl ih =>
    have hc : isNlChar c = false := h c (List.mem_cons_self _ _)
    simp only [List.cons_append, takeUntilNL, hc, Bool.false_eq_true, if_false,
      List.length_cons, List.append_eq]
    rw [ih (fun x hx => h x (List.mem_cons_of_mem _ hx))]
    omega

theorem takeUntilNL_term {term after : List Char} (h : TermOk term after) :
    takeUntilNL (term ++ after) = term.length := by
  rcases h with h | ⟨t, rfl, hnl, hcr⟩
  · subst h
    show takeUntilNL ('\r' :: '\n' :: after) = 2
    simp [takeUntilNL, nlLenAt, show isNlChar '\r' = true from by decide]
  · show takeUntilNL (t :: after) = 1
    simp only [takeUntilNL, hnl, if_true]
    unfold nlLenAt
    by_cases ht : t = '\r'
    · rw [if_pos ht]
      subst ht
      have hne := hcr rfl
      cases after with
      | nil => rfl
      | cons d tl =>
        have hd : d ≠ '\n' := by
          intro hdeq
          exact hne (by rw [hdeq]; rfl)
        simp [hd]
    · rw [if_neg ht]

/-- `commentLen` on an input that starts right at the `;`: one for the
semicolon, the `take_until` body, and the trailing whitespace padding. -/
theorem commentLen_semi (X : List Char) :
    commentLen (';' :: X)
      = some (1 + takeUntilNL X + countWhile isWsChar (X.drop (takeUntilNL X))) := by
  have hw : countWhile isWsChar (';' :: X) = 0 := countWhile_head_false (by decide) _
  simp [commentLen, hw]

/-- At a `;`, the `token` alternative yields a Comment of the comment rule's
length (the earlier rules `lparen` and `rparen` fail on `;`). -/
theorem matchToken_semi {X : List Char} {n : Nat} (h : commentLen (';' :: X) = some n) :
    matchToken (';' :: X) = some (Token.Comment, n) := by
  have h1 : (';' : Char) ≠ '(' := by decide
  have h2 : (';' : Char) ≠ ')' := by decide
  simp [matchToken, h1, h2, h]

/-- Claim C3, amended.  A `;` followed by any characters produces a Comment
token whose span covers from the `;` up to AND INCLUDING the next line
terminator when there is one, plus any whitespace immediately after it
(consumed as the comment rule's trailing padding), or up to end-of-input
when there is no terminator.  Stated over every terminator-free body, every
terminator chunk (CRLF or a single break character), every trailing
whitespace run and every non-whitespace continuation; in particular
"; comment" (no newline, at end-of-input) produces exactly one Comment token
spanning from the `;` to end-of-input. -/
theorem claim_C3_amended :
    (∀ body : List Char, (∀ c ∈ body, isNlChar c = false) →
      lexer (String.mk (';' :: body)) = [(Token.Comment, ⟨0, 1 + body.length⟩)])
    ∧ (∀ body term ws rest : List Char,
        (∀ c ∈ body, isNlChar c = false) →
        TermOk term (ws ++ rest) →
        (∀ c ∈ ws, isWsChar c = true) →
        NoWsHead rest →
        (lexer (String.mk (';' :: (body ++ (term ++ (ws ++ rest)))))).head?
          = some (Token.Comment, ⟨0, 1 + body.length + term.length + ws.length⟩))
    ∧ lexer "; comment" = [(Token.Comment, ⟨0, 9⟩)] := by
  refine ⟨?_, ?_, by decide⟩
  · intro body hbody
    have hA : takeUntilNL body = body.length := by
      have h0 := takeUntilNL_append_noNL hbody []
      simpa using h0
    have hcl : commentLen (';' :: body) = some (1 + body.length) := by
      rw [commentLen_semi body, hA, List.drop_length]
      simp [countWhile]
    have hmt := matchToken_semi hcl
    have hw : countWhile isWsChar (';' :: body) = 0 := countWhile_head_false (by decide) _
    show lexLoop ((';' :: body).length + 1) (';' :: body) 0 = _
    simp only [List.length_cons, lexLoop, hw, List.drop_zero, hmt]
    have hdropall : (';' :: body).drop (1 + body.length) = [] := by
      apply List.drop_eq_nil_of_le
      simp only [List.length_cons]
      omega
    rw [hdropall]
    simp [matchToken, countWhile]
  · intro body term ws rest hbody hterm hws hrest
    have hTU : takeUntilNL (body ++ (term ++ (ws ++ rest))) = body.length + term.length := by
      rw [takeUntilNL_append_noNL hbody, takeUntilNL_term hterm]
    have hdrop : (body ++ (term ++ (ws ++ rest))).drop (body.length + term.length)
        = ws ++ rest := by
      rw [show body ++ (term ++ (ws ++ rest)) = (body ++ term) ++ (ws ++ rest) from by
        simp [List.append_assoc]]
      have h0 := List.drop_left (body ++ term) (ws ++ rest)
      rw [List.length_append] at h0
      exact h0
    have h0 : countWhile isWsChar rest = 0 := by
      cases rest with
      | nil => rfl
      | cons c tl =>
        have hc : isWsChar c = false := hrest
        exact countWhile_head_false hc tl
    have hcw : countWhile isWsChar (ws ++ rest) = ws.length := by
      rw [countWhile_append_all hws, h0]
      omega
    have hcl : commentLen (';' :: (body ++ (term ++ (ws ++ rest))))
        = some (1 + body.length + term.length + ws.length) := by
      rw [commentLen_semi, hTU, hdrop, hcw]
      congr 1
      omega
    have hmt := matchToken_semi hcl
    have hw0 : countWhile isWsChar (';' :: (body ++ (term ++ (ws ++ rest)))) = 0 :=
      countWhile_head_false (by decide) _
    show (lexLoop ((';' :: (body ++ (term ++ (ws ++ rest)))).length + 1)
        (';' :: (body ++ (term ++ (ws ++ rest)))) 0).head? = _
    simp only [List.length_cons, lexLoop, hw0, List.drop_zero, hmt, List.head?_cons]
    simp

/-- Claim C3 amended, witness: the general comment-span rule applied at
body " c", terminator LF, trailing padding " ", continuation "x" — the
input "; c⏎ x" — yielding a Comment spanning [0, 5). -/
theorem claim_C3_amended_witness :
    (∀ c ∈ [' ', 'c'], isNlChar c = false)
    ∧ TermOk ['\n'] ([' '] ++ ['x'])
    ∧ (∀ c ∈ [' '], isWsChar c = true)
    ∧ NoWsHead ['x']
    ∧ (lexer (String.mk (';' :: ([' ', 'c'] ++ (['\n'] ++ ([' '] ++ ['x'])))))).head?
        = some (Token.Comment, ⟨0, 5⟩) := by
  have htm : TermOk ['\n'] ([' '] ++ ['x']) :=
    Or.inr ⟨'\n', rfl, by decide, fun hc => absurd hc (by decide)⟩
  have hnw : NoWsHead ['x'] := (by decide : isWsChar 'x' = false)
  have h := claim_C3_amended.2.1 [' ', 'c'] ['\n'] [' '] ['x'] (by decide) htm
    (by decide) hnw
  refine ⟨by decide, htm, by decide, hnw, ?_⟩
  simpa using h

end Orelang
